import Mathlib

/-!
Shallow embedding of the binning/sorting engine of `Cabana_Sort.hpp`
(namespace `Cabana`), together with proofs of the specified properties.

Conventions of the embedding:
* machine `int` values are modelled as `ℤ` (no overflow occurs in any of the
  scenarios considered, all quantities are far below `2^31`);
* `double` grid coordinates are modelled as `ℚ` (the only operations used on
  them are subtraction, division and `floor`, which are exact on the values
  appearing in the specified scenarios);
* a Kokkos `View` of keys is modelled as a function `ℕ → κ`;
* an AoSoA is modelled as a record of member columns, each column being a
  function from particle index to the member value (a member value may itself
  be a function, modelling the extra array dimensions of a member);
* `Kokkos::BinSort`, `Kokkos::BinOp1D`, `Kokkos::BinOp3D` and the min/max
  reduction are external library collaborators whose source is not part of
  this repository; they are modelled from the spec (sections 4.1 - 4.3),
  with the bin-count conventions pinned down by the repository's own unit
  tests in `tstSort.hpp` (an explicit 1-d bin count `nbin` yields `nbin + 1`
  bins, as required by the `bin_by_key_test` expectations).
-/

namespace Cabana

/-- List of the indices of the sub-range `[b, e)`, in increasing order. -/
def rangeList (b e : ℕ) : List ℕ :=
  (List.range (e - b)).map (fun j => j + b)

/-- Modelled from the spec: the interface of a `Kokkos::BinSort`-compatible
comparator (the `BucketAssigner` of spec section 4.2).  `maxBins` is the
number of bins it addresses, `binIdx` maps a key to its bin index, and
`ltKeys` is the key ordering used when sorting within bins. -/
structure Comparator (κ : Type) where
  maxBins : ℕ
  binIdx : κ → ℤ
  ltKeys : κ → κ → Bool

/-- Result record of a binning operation: per-bin counts, per-bin offsets and
the permutation vector, mirroring class `BinningData` of `Cabana_Sort.hpp`. -/
structure BinningData where
  counts : List ℕ
  offsets : List ℕ
  permuteVector : List ℕ

/-- Number of bins (`BinningData::numBin`, which returns the extent of the
counts view). -/
def BinningData.numBin (bd : BinningData) : ℕ := bd.counts.length

/-- Number of particles in a bin (`BinningData::binSize`). -/
def BinningData.binSize (bd : BinningData) (bin_id : ℕ) : ℕ :=
  bd.counts.getD bin_id 0

/-- Starting particle index of a bin (`BinningData::binOffset`). -/
def BinningData.binOffset (bd : BinningData) (bin_id : ℕ) : ℕ :=
  bd.offsets.getD bin_id 0

/-- Old (unbinned) index of the particle now at `particle_id`
(`BinningData::permutation`). -/
def BinningData.permutation (bd : BinningData) (particle_id : ℕ) : ℕ :=
  bd.permuteVector.getD particle_id 0

/-- Modelled from the spec: the members of one bin, i.e. the indices of
`[b, e)` whose key is assigned bin index `bin` by the comparator, in
increasing index order (spec section 4.3, bucket assignment). -/
def binMembers (keys : ℕ → κ) (comp : Comparator κ) (b e bin : ℕ) : List ℕ :=
  (rangeList b e).filter (fun i => decide (comp.binIdx (keys i) = (bin : ℤ)))

/-- Modelled from the spec: the within-bin ordering pass.  When
`sort_within_bins` is requested the members of a bin are further ordered by
key value (spec section 4.3); ties keep their original relative order (the
tie-break is an open question of the spec, any total order refinement is
admissible). -/
def withinBinOrder (keys : ℕ → κ) (comp : Comparator κ) (swb : Bool)
    (l : List ℕ) : List ℕ :=
  if swb then
    List.insertionSort (fun i j => comp.ltKeys (keys j) (keys i) = false) l
  else l

/-- Modelled from the spec: the per-bin index lists, one per bin, in bin
order. -/
def binFibers (keys : ℕ → κ) (comp : Comparator κ) (swb : Bool)
    (b e : ℕ) : List (List ℕ) :=
  (List.range comp.maxBins).map
    (fun bin => withinBinOrder keys comp swb (binMembers keys comp b e bin))

/-- Modelled from the spec: the permutation vector, obtained by writing the
members of each bin contiguously starting at the bin's offset (spec section
4.3). -/
def permuteVec (keys : ℕ → κ) (comp : Comparator κ) (swb : Bool)
    (b e : ℕ) : List ℕ :=
  (binFibers keys comp swb b e).flatten

/-- Modelled from the spec: the per-bin counts (parallel histogram of bucket
assignments, spec section 4.3). -/
def binCounts (keys : ℕ → κ) (comp : Comparator κ) (b e : ℕ) : List ℕ :=
  (List.range comp.maxBins).map
    (fun bin => (binMembers keys comp b e bin).length)

/-- Modelled from the spec: exclusive prefix sum producing the per-bin
offsets from the per-bin counts (spec section 4.3). -/
def binOffsets (cs : List ℕ) : List ℕ :=
  (List.range cs.length).map (fun bin => (cs.take bin).sum)

/-- Modelled from the spec: `Kokkos::BinSort::create_permute_vector` followed
by reading back the counts, offsets and permutation views (`Kokkos::BinSort`
is external to this repository). -/
def createPermuteVector (keys : ℕ → κ) (comp : Comparator κ) (swb : Bool)
    (b e : ℕ) : BinningData :=
  { counts := binCounts keys comp b e
    offsets := binOffsets (binCounts keys comp b e)
    permuteVector := permuteVec keys comp swb b e }

/-- An AoSoA with three member columns of independent types, matching the
three-member data layouts exercised by the unit tests.  Each column maps a
particle index to that member's value. -/
@[ext]
structure AoSoA3 (α β γ : Type) where
  size : ℕ
  c0 : ℕ → α
  c1 : ℕ → β
  c2 : ℕ → γ

/-- Modelled from the spec: `Kokkos::BinSort::sort` applied to one member
slice over `[b, e)`: the element now at `i` is the old element at
`perm[i - b]`; elements outside the range keep their values. -/
def sortSlice (perm : List ℕ) (b e : ℕ) (col : ℕ → α) : ℕ → α :=
  fun i => if b ≤ i ∧ i < e then col (perm.getD (i - b) i) else col i

/-- The recursive per-member sort of `Impl::sortMember`: every member column
is reordered with the same permutation. -/
def sortMember (aosoa : AoSoA3 α β γ) (perm : List ℕ) (b e : ℕ) :
    AoSoA3 α β γ :=
  { aosoa with
    c0 := sortSlice perm b e aosoa.c0
    c1 := sortSlice perm b e aosoa.c1
    c2 := sortSlice perm b e aosoa.c2 }

/-- Embedding of `Impl::kokkosBinSort`: build the binning data from the keys
and comparator, and unless `create_data_only` is set, apply the permutation
to every member of the AoSoA.  Returns the (possibly reordered) AoSoA
together with the `BinningData`. -/
def kokkosBinSort (aosoa : AoSoA3 α β γ) (keys : ℕ → κ) (comp : Comparator κ)
    (create_data_only sort_within_bins : Bool) (b e : ℕ) :
    AoSoA3 α β γ × BinningData :=
  let bd := createPermuteVector keys comp sort_within_bins b e
  (if create_data_only then aosoa else sortMember aosoa bd.permuteVector b e,
   bd)

/-- Embedding of `Impl::keyMinMax`: minimum and maximum key over `[b, e)`.
For the empty range the Kokkos `MinMax` reduction returns its identity
values, the extreme values of the 32-bit `int` key type used by the tests. -/
def keyMinMax (keys : ℕ → ℤ) (b e : ℕ) : ℤ × ℤ :=
  if b < e then
    ((rangeList b e).foldl (fun m i => min m (keys i)) (keys b),
     (rangeList b e).foldl (fun m i => max m (keys i)) (keys b))
  else (2147483647, -2147483648)

/-- Modelled from the spec: the bin index computed by `Kokkos::BinOp1D`
(external to this repository): `floor((k - kmin) / (kmax - kmin) * nbin)`,
with the degenerate case `kmax = kmin` mapping every key to bin 0 (spec
section 4.2). -/
def binOp1dBinIdx (nbin : ℕ) (kmin kmax k : ℤ) : ℤ :=
  if kmax = kmin then 0 else (k - kmin) * (nbin : ℤ) / (kmax - kmin)

/-- Modelled from the spec: the `Kokkos::BinOp1D` comparator.  An explicit
bin count `nbin` yields `nbin + 1` bins, the convention pinned down by the
repository's `bin_by_key_test` (binning `N` particles with `nbin = N - 1`
must give `numBin() == N`). -/
def binOp1d (nbin : ℕ) (kmin kmax : ℤ) : Comparator ℤ :=
  { maxBins := nbin + 1
    binIdx := binOp1dBinIdx nbin kmin kmax
    ltKeys := fun a b => decide (a < b) }

/-- Embedding of `Impl::kokkosBinSort1d`: discover the key bounds, build the
equal-width 1-d comparator and delegate to the generic bin sort. -/
def kokkosBinSort1d (aosoa : AoSoA3 α β γ) (keys : ℕ → ℤ) (nbin : ℕ)
    (create_data_only sort_within_bins : Bool) (b e : ℕ) :
    AoSoA3 α β γ × BinningData :=
  let bounds := keyMinMax keys b e
  kokkosBinSort aosoa keys (binOp1d nbin bounds.1 bounds.2)
    create_data_only sort_within_bins b e

/-- Embedding of the sub-range overload of `sortByKeyWithComparator`
(`Cabana_Sort.hpp`, lines 337-349).  The C++ function returns `void`; the
model returns the AoSoA the caller observes afterwards.  Note the source
passes `create_data_only = true` and `sort_within_bins = false` to
`Impl::kokkosBinSort`. -/
def sortByKeyWithComparatorRange (aosoa : AoSoA3 α β γ) (keys : ℕ → κ)
    (comp : Comparator κ) (b e : ℕ) : AoSoA3 α β γ :=
  (kokkosBinSort aosoa keys comp true false b e).1

/-- Embedding of the whole-collection overload of `sortByKeyWithComparator`
(`Cabana_Sort.hpp`, lines 370-380), which passes `create_data_only = false`
and `sort_within_bins = true`. -/
def sortByKeyWithComparatorAll (aosoa : AoSoA3 α β γ) (keys : ℕ → κ)
    (comp : Comparator κ) : AoSoA3 α β γ :=
  (kokkosBinSort aosoa keys comp false true 0 aosoa.size).1

/-- Embedding of the sub-range overload of `binByKeyWithComparator`. -/
def binByKeyWithComparator (aosoa : AoSoA3 α β γ) (keys : ℕ → κ)
    (comp : Comparator κ) (create_data_only : Bool) (b e : ℕ) :
    AoSoA3 α β γ × BinningData :=
  kokkosBinSort aosoa keys comp create_data_only false b e

/-- Embedding of the sub-range overload of `sortByKey`: a sort uses
`nbin = (end - begin) / 2` with within-bin ordering enabled. -/
def sortByKey (aosoa : AoSoA3 α β γ) (keys : ℕ → ℤ) (b e : ℕ) :
    AoSoA3 α β γ × BinningData :=
  kokkosBinSort1d aosoa keys ((e - b) / 2) false true b e

/-- Embedding of the whole-collection overload of `sortByKey`. -/
def sortByKeyAll (aosoa : AoSoA3 α β γ) (keys : ℕ → ℤ) :
    AoSoA3 α β γ × BinningData :=
  sortByKey aosoa keys 0 aosoa.size

/-- Embedding of the sub-range overload of `binByKey`: a bin uses the
caller-chosen `nbin` with within-bin ordering disabled. -/
def binByKey (aosoa : AoSoA3 α β γ) (keys : ℕ → ℤ) (nbin : ℕ)
    (create_data_only : Bool) (b e : ℕ) : AoSoA3 α β γ × BinningData :=
  kokkosBinSort1d aosoa keys nbin create_data_only false b e

/-- Embedding of the whole-collection overload of `binByKey`. -/
def binByKeyAll (aosoa : AoSoA3 α β γ) (keys : ℕ → ℤ) (nbin : ℕ)
    (create_data_only : Bool) : AoSoA3 α β γ × BinningData :=
  binByKey aosoa keys nbin create_data_only 0 aosoa.size

/-- Embedding of `binByMember` for member index 1 (the member used as key by
the unit tests): `Impl::copySliceToKeys` copies the member slice into a key
view, then `binByKey` runs on those keys. -/
def binByMember1 (aosoa : AoSoA3 α ℤ γ) (nbin : ℕ)
    (create_data_only : Bool) (b e : ℕ) : AoSoA3 α ℤ γ × BinningData :=
  binByKey aosoa aosoa.c1 nbin create_data_only b e

/-- Cartesian-grid binning result, mirroring class
`CartesianGrid3dBinningData`: the wrapped 1-d `BinningData` plus the three
per-axis bin counts. -/
structure CartesianGrid3dBinningData where
  binData : BinningData
  nbin0 : ℤ
  nbin1 : ℤ
  nbin2 : ℤ

/-- Total number of bins (`CartesianGrid3dBinningData::totalBins`). -/
def CartesianGrid3dBinningData.totalBins (g : CartesianGrid3dBinningData) :
    ℤ :=
  g.nbin0 * g.nbin1 * g.nbin2

/-- Cardinal (linear) index of the bin with 3-d index `(i, j, k)`
(`CartesianGrid3dBinningData::cardinalBinIndex`): the i index moves the
slowest and the k index the fastest. -/
def CartesianGrid3dBinningData.cardinalBinIndex
    (g : CartesianGrid3dBinningData) (i j k : ℤ) : ℤ :=
  i * g.nbin1 * g.nbin2 + j * g.nbin2 + k

/-- Bin size by 3-d index, delegating to the wrapped 1-d data at the
cardinal index (`CartesianGrid3dBinningData::binSize`). -/
def CartesianGrid3dBinningData.binSize (g : CartesianGrid3dBinningData)
    (i j k : ℤ) : ℕ :=
  g.binData.binSize (g.cardinalBinIndex i j k).toNat

/-- Bin offset by 3-d index, delegating to the wrapped 1-d data at the
cardinal index (`CartesianGrid3dBinningData::binOffset`). -/
def CartesianGrid3dBinningData.binOffset (g : CartesianGrid3dBinningData)
    (i j k : ℤ) : ℕ :=
  g.binData.binOffset (g.cardinalBinIndex i j k).toNat

/-- The wrapped 1-d bin data (`CartesianGrid3dBinningData::data1d`). -/
def CartesianGrid3dBinningData.data1d (g : CartesianGrid3dBinningData) :
    BinningData :=
  g.binData

/-- Modelled from the spec: the per-axis bucket assignment of
`Kokkos::BinOp3D` (external to this repository):
`floor((k - kmin) / (kmax - kmin) * nbin)` clamped to `[0, nbin - 1]`, with
the degenerate case mapping to bin 0 (spec section 4.2). -/
def axisBinIdx (nbin : ℤ) (kmin kmax k : ℚ) : ℤ :=
  if kmax = kmin then 0
  else max 0 (min (nbin - 1) ⌊(k - kmin) / (kmax - kmin) * (nbin : ℚ)⌋)

/-- Modelled from the spec: the `Kokkos::BinOp3D` comparator.  The three
axis assignments combine into the linear index
`i * nbin1 * nbin2 + j * nbin2 + k` (spec section 4.2, row-major order);
the total bin count is the product of the per-axis counts.  Grid binning
never sorts within bins, so the key ordering is unused. -/
def binOp3d (n0 n1 n2 : ℤ) (x0 y0 z0 x1 y1 z1 : ℚ) :
    Comparator (ℚ × ℚ × ℚ) :=
  { maxBins := (n0 * n1 * n2).toNat
    binIdx := fun p =>
      (axisBinIdx n0 x0 x1 p.1 * n1 + axisBinIdx n1 y0 y1 p.2.1) * n2 +
        axisBinIdx n2 z0 z1 p.2.2
    ltKeys := fun _ _ => false }

/-- Embedding of the sub-range overload of `binByCartesianGrid3d`: the
position member (member 0) is copied into the key view, the per-axis bin
counts are `floor((max - min) / d)`, and the result wraps the 1-d binning
data with those counts. -/
def binByCartesianGrid3d (aosoa : AoSoA3 (ℚ × ℚ × ℚ) β γ)
    (create_data_only : Bool) (b e : ℕ)
    (dx dy dz x0 y0 z0 x1 y1 z1 : ℚ) :
    AoSoA3 (ℚ × ℚ × ℚ) β γ × CartesianGrid3dBinningData :=
  let n0 := ⌊(x1 - x0) / dx⌋
  let n1 := ⌊(y1 - y0) / dy⌋
  let n2 := ⌊(z1 - z0) / dz⌋
  let comp := binOp3d n0 n1 n2 x0 y0 z0 x1 y1 z1
  let r := kokkosBinSort aosoa aosoa.c0 comp create_data_only false b e
  (r.1, { binData := r.2, nbin0 := n0, nbin1 := n1, nbin2 := n2 })

/-- Particle collection of the end-to-end unit-test scenarios: `N` particles
with a 3-member record (`float[3]`, `int`, `double[3][2]`), member values
derived from the reverse index `N - 1 - p`. -/
def scenarioAoSoA (N : ℕ) : AoSoA3 (ℕ → ℤ) ℤ (ℕ → ℕ → ℤ) :=
  { size := N
    c0 := fun p i => (N : ℤ) - 1 - p + i
    c1 := fun p => (N : ℤ) - 1 - p
    c2 := fun p i j => (N : ℤ) - 1 - p + i + j }

/-- Key view of the end-to-end unit-test scenarios: key `N - 1 - p` for
particle `p`. -/
def scenarioKeys (N : ℕ) : ℕ → ℤ :=
  fun p => (N : ℤ) - 1 - p

/-- Two-particle collection used as a concrete input: member 1 holds the
values 5 (particle 0) and 3 (particle 1). -/
def exampleAoSoA : AoSoA3 ℤ ℤ ℤ :=
  { size := 2
    c0 := fun _ => 0
    c1 := fun p => if p = 0 then 5 else 3
    c2 := fun _ => 0 }

/-- Keys for `exampleAoSoA`: key `1 - p`, so the key order is the reverse of
the storage order. -/
def exampleKeys : ℕ → ℤ :=
  fun p => 1 - (p : ℤ)

/-- A 1-d equal-width comparator over key range `[0, 1]` with one explicit
bin (hence two bins), mapping key `k` to bin `k`. -/
def exampleComp : Comparator ℤ :=
  binOp1d 1 0 1

/-- Constant key view used as a concrete input for the degenerate key-range
scenario. -/
def constantKeys : ℕ → ℤ :=
  fun _ => 7

/-- A small concrete Cartesian-grid binning record with per-axis bin counts
2, 3, 4, used as a concrete input. -/
def exampleGrid : CartesianGrid3dBinningData :=
  { binData := { counts := [], offsets := [], permuteVector := [] }
    nbin0 := 2
    nbin1 := 3
    nbin2 := 4 }

/-- A one-particle collection with a 3-component rational position member,
used as a concrete input for grid binning. -/
def exampleGridAoSoA : AoSoA3 (ℚ × ℚ × ℚ) ℤ ℤ :=
  { size := 1
    c0 := fun _ => (1/2, 1/2, 1/2)
    c1 := fun _ => 0
    c2 := fun _ => 0 }

end Cabana

namespace Cabana

/-! ### Basic facts about `rangeList` -/

theorem mem_rangeList {b e i : ℕ} : i ∈ rangeList b e ↔ b ≤ i ∧ i < e := by
  unfold rangeList
  simp only [List.mem_map, List.mem_range]
  constructor
  · rintro ⟨j, hj, rfl⟩
    omega
  · rintro ⟨h1, h2⟩
    exact ⟨i - b, by omega, by omega⟩

theorem length_rangeList (b e : ℕ) : (rangeList b e).length = e - b := by
  unfold rangeList
  simp

theorem nodup_rangeList (b e : ℕ) : (rangeList b e).Nodup := by
  unfold rangeList
  exact (List.nodup_range _).map (fun x y h => by omega)

theorem rangeList_zero (e : ℕ) : rangeList 0 e = List.range e := by
  unfold rangeList
  simp

theorem count_rangeList (b e i : ℕ) :
    (rangeList b e).count i = if b ≤ i ∧ i < e then 1 else 0 := by
  by_cases h : b ≤ i ∧ i < e
  · rw [if_pos h]
    exact List.count_eq_one_of_mem (nodup_rangeList b e) (mem_rangeList.mpr h)
  · rw [if_neg h]
    exact List.count_eq_zero.mpr (fun hm => h (mem_rangeList.mp hm))

theorem getD_rangeList {b e p : ℕ} (h : p < e - b) (d : ℕ) :
    (rangeList b e).getD p d = b + p := by
  have hlen : p < (rangeList b e).length := by rw [length_rangeList]; exact h
  rw [List.getD_eq_getElem _ _ hlen]
  unfold rangeList
  simp only [List.getElem_map, List.getElem_range]
  omega

/-! ### Facts about the offsets (exclusive prefix sum) -/

theorem binOffsets_length (cs : List ℕ) : (binOffsets cs).length = cs.length := by
  unfold binOffsets
  simp

theorem binOffsets_getD_zero (cs : List ℕ) : (binOffsets cs).getD 0 0 = 0 := by
  unfold binOffsets
  cases cs with
  | nil => rfl
  | cons c cs =>
    rw [List.getD_eq_getElem _ _ (by simp)]
    simp

theorem binOffsets_getD_succ (cs : List ℕ) (j : ℕ) (h : j + 1 < cs.length) :
    (binOffsets cs).getD (j + 1) 0 =
      (binOffsets cs).getD j 0 + cs.getD j 0 := by
  unfold binOffsets
  rw [List.getD_eq_getElem _ _ (by simpa using h),
      List.getD_eq_getElem _ _ (by simp; omega),
      List.getD_eq_getElem _ _ (by omega)]
  simp only [List.getElem_map, List.getElem_range]
  exact List.sum_take_succ _ _ _

/-! ### Counting elements across the bin fibers -/

theorem listSumRange (f : ℕ → ℕ) (n : ℕ) :
    ((List.range n).map f).sum = ∑ x ∈ Finset.range n, f x := by
  induction n with
  | zero => rfl
  | succ m ih =>
    rw [List.range_succ, List.map_append, List.sum_append,
        Finset.sum_range_succ, ih]
    simp

theorem count_binMembers (keys : ℕ → κ) (comp : Comparator κ) (b e bin i : ℕ) :
    (binMembers keys comp b e bin).count i =
      if comp.binIdx (keys i) = (bin : ℤ) then (rangeList b e).count i
      else 0 := by
  unfold binMembers
  by_cases h : comp.binIdx (keys i) = (bin : ℤ)
  · rw [if_pos h]
    exact List.count_filter (by simpa using h)
  · rw [if_neg h]
    refine List.count_eq_zero.mpr (fun hm => ?_)
    have := (List.mem_filter.mp hm).2
    simp at this
    exact h this

theorem count_withinBinOrder (keys : ℕ → κ) (comp : Comparator κ)
    (swb : Bool) (l : List ℕ) (i : ℕ) :
    (withinBinOrder keys comp swb l).count i = l.count i := by
  unfold withinBinOrder
  by_cases h : swb
  · rw [if_pos h]
    exact (List.perm_insertionSort _ l).count_eq i
  · rw [if_neg h]

theorem mem_withinBinOrder (keys : ℕ → κ) (comp : Comparator κ)
    (swb : Bool) (l : List ℕ) (i : ℕ) :
    i ∈ withinBinOrder keys comp swb l ↔ i ∈ l := by
  unfold withinBinOrder
  by_cases h : swb
  · rw [if_pos h]
    exact (List.perm_insertionSort _ l).mem_iff
  · rw [if_neg h]

theorem length_withinBinOrder (keys : ℕ → κ) (comp : Comparator κ)
    (swb : Bool) (l : List ℕ) :
    (withinBinOrder keys comp swb l).length = l.length := by
  unfold withinBinOrder
  by_cases h : swb
  · rw [if_pos h]
    exact List.length_insertionSort _ l
  · rw [if_neg h]

/-- Central permutation property: when every element of the range is
assigned an in-range bin, the permutation vector is a rearrangement of the
index range `[b, e)`. -/
theorem permuteVec_perm_rangeList (keys : ℕ → κ) (comp : Comparator κ)
    (swb : Bool) (b e : ℕ)
    (h : ∀ i, b ≤ i → i < e →
      0 ≤ comp.binIdx (keys i) ∧ comp.binIdx (keys i) < (comp.maxBins : ℤ)) :
    (permuteVec keys comp swb b e).Perm (rangeList b e) := by
  rw [List.perm_iff_count]
  intro a
  unfold permuteVec binFibers
  rw [List.count_flatten, List.map_map]
  have hcol : ∀ bin : ℕ,
      ((List.count a ∘ fun bin =>
          withinBinOrder keys comp swb (binMembers keys comp b e bin)) bin) =
        (if comp.binIdx (keys a) = (bin : ℤ) then (rangeList b e).count a
         else 0) := by
    intro bin
    simp only [Function.comp_apply]
    rw [count_withinBinOrder, count_binMembers]
  rw [List.map_congr_left (fun bin _ => hcol bin), listSumRange]
  by_cases ha : b ≤ a ∧ a < e
  · obtain ⟨h0, h1⟩ := h a ha.1 ha.2
    set c : ℕ := (comp.binIdx (keys a)).toNat with hc
    have hcz : comp.binIdx (keys a) = (c : ℤ) := by
      rw [hc, Int.toNat_of_nonneg h0]
    have hcB : c < comp.maxBins := by
      rw [hcz] at h1
      exact_mod_cast h1
    have heq : ∀ bin : ℕ,
        (if comp.binIdx (keys a) = (bin : ℤ) then (rangeList b e).count a
         else 0) =
          (if c = bin then (rangeList b e).count a else 0) := by
      intro bin
      rw [hcz]
      by_cases hcb : c = bin
      · rw [if_pos (by exact_mod_cast hcb), if_pos hcb]
      · rw [if_neg (by exact_mod_cast hcb), if_neg hcb]
    rw [Finset.sum_congr rfl (fun bin _ => heq bin), Finset.sum_ite_eq]
    rw [if_pos (Finset.mem_range.mpr hcB)]
  · have hz : (rangeList b e).count a = 0 :=
      List.count_eq_zero.mpr (fun hm => ha (mem_rangeList.mp hm))
    rw [hz]
    simp

theorem permuteVec_length_eq_counts_sum (keys : ℕ → κ) (comp : Comparator κ)
    (swb : Bool) (b e : ℕ) :
    (permuteVec keys comp swb b e).length = (binCounts keys comp b e).sum := by
  unfold permuteVec binFibers binCounts
  rw [List.length_flatten, List.map_map]
  congr 1
  refine List.map_congr_left (fun bin _ => ?_)
  simp only [Function.comp_apply]
  exact length_withinBinOrder _ _ _ _

/-! ### Bounds for the discovered key range -/

theorem foldl_min_le_init (keys : ℕ → ℤ) (l : List ℕ) (a : ℤ) :
    l.foldl (fun m i => min m (keys i)) a ≤ a := by
  induction l generalizing a with
  | nil => simp
  | cons x xs ih =>
    simp only [List.foldl_cons]
    exact le_trans (ih _) (min_le_left _ _)

theorem foldl_min_le_mem (keys : ℕ → ℤ) (l : List ℕ) (i : ℕ)
    (hi : i ∈ l) :
    ∀ a : ℤ, l.foldl (fun m i => min m (keys i)) a ≤ keys i := by
  induction l with
  | nil => cases hi
  | cons x xs ih =>
    intro a
    simp only [List.foldl_cons]
    rcases List.mem_cons.mp hi with rfl | hmem
    · exact le_trans (foldl_min_le_init _ _ _) (min_le_right _ _)
    · exact ih hmem _

theorem le_foldl_min (keys : ℕ → ℤ) (l : List ℕ) (c : ℤ)
    (h : ∀ i ∈ l, c ≤ keys i) :
    ∀ a : ℤ, c ≤ a → c ≤ l.foldl (fun m i => min m (keys i)) a := by
  induction l with
  | nil => intro a h0; simpa using h0
  | cons x xs ih =>
    intro a h0
    simp only [List.foldl_cons]
    exact ih (fun i hi => h i (List.mem_cons_of_mem x hi)) _
      (le_min h0 (h x (List.mem_cons_self x xs)))

theorem le_foldl_max_init (keys : ℕ → ℤ) (l : List ℕ) (a : ℤ) :
    a ≤ l.foldl (fun m i => max m (keys i)) a := by
  induction l generalizing a with
  | nil => simp
  | cons x xs ih =>
    simp only [List.foldl_cons]
    exact le_trans (le_max_left _ _) (ih _)

theorem le_foldl_max_mem (keys : ℕ → ℤ) (l : List ℕ) (i : ℕ)
    (hi : i ∈ l) :
    ∀ a : ℤ, keys i ≤ l.foldl (fun m i => max m (keys i)) a := by
  induction l with
  | nil => cases hi
  | cons x xs ih =>
    intro a
    simp only [List.foldl_cons]
    rcases List.mem_cons.mp hi with rfl | hmem
    · exact le_trans (le_max_right _ _) (le_foldl_max_init _ _ _)
    · exact ih hmem _

theorem foldl_max_le (keys : ℕ → ℤ) (l : List ℕ) (c : ℤ)
    (h : ∀ i ∈ l, keys i ≤ c) :
    ∀ a : ℤ, a ≤ c → l.foldl (fun m i => max m (keys i)) a ≤ c := by
  induction l with
  | nil => intro a h0; simpa using h0
  | cons x xs ih =>
    intro a h0
    simp only [List.foldl_cons]
    exact ih (fun i hi => h i (List.mem_cons_of_mem x hi)) _
      (max_le h0 (h x (List.mem_cons_self x xs)))

theorem keyMinMax_fst_le (keys : ℕ → ℤ) (b e i : ℕ) (h1 : b ≤ i)
    (h2 : i < e) :
    (keyMinMax keys b e).1 ≤ keys i := by
  have hbe : b < e := lt_of_le_of_lt h1 h2
  unfold keyMinMax
  rw [if_pos hbe]
  exact foldl_min_le_mem keys _ i (mem_rangeList.mpr ⟨h1, h2⟩) _

theorem le_keyMinMax_snd (keys : ℕ → ℤ) (b e i : ℕ) (h1 : b ≤ i)
    (h2 : i < e) :
    keys i ≤ (keyMinMax keys b e).2 := by
  have hbe : b < e := lt_of_le_of_lt h1 h2
  unfold keyMinMax
  rw [if_pos hbe]
  exact le_foldl_max_mem keys _ i (mem_rangeList.mpr ⟨h1, h2⟩) _

/-! ### Range and monotonicity of the 1-d bucket assignment -/

theorem binOp1dBinIdx_nonneg (nbin : ℕ) (kmin kmax k : ℤ) (h1 : kmin ≤ k)
    (h2 : k ≤ kmax) :
    0 ≤ binOp1dBinIdx nbin kmin kmax k := by
  unfold binOp1dBinIdx
  by_cases h : kmax = kmin
  · rw [if_pos h]
  · rw [if_neg h]
    exact Int.ediv_nonneg (mul_nonneg (by omega) (by positivity)) (by omega)

theorem binOp1dBinIdx_lt (nbin : ℕ) (kmin kmax k : ℤ) (h1 : kmin ≤ k)
    (h2 : k ≤ kmax) :
    binOp1dBinIdx nbin kmin kmax k < (nbin : ℤ) + 1 := by
  unfold binOp1dBinIdx
  by_cases h : kmax = kmin
  · rw [if_pos h]
    positivity
  · rw [if_neg h]
    have hd : 0 < kmax - kmin := by omega
    have hle : (k - kmin) * (nbin : ℤ) ≤ (kmax - kmin) * (nbin : ℤ) :=
      mul_le_mul_of_nonneg_right (by omega) (by positivity)
    calc (k - kmin) * (nbin : ℤ) / (kmax - kmin)
        ≤ (kmax - kmin) * (nbin : ℤ) / (kmax - kmin) :=
          Int.ediv_le_ediv hd hle
      _ = (nbin : ℤ) := Int.mul_ediv_cancel_left _ (by omega)
      _ < (nbin : ℤ) + 1 := by omega

theorem binOp1dBinIdx_mono (nbin : ℕ) (kmin kmax k1 k2 : ℤ)
    (hmm : kmin ≤ kmax) (h1 : kmin ≤ k1) (h12 : k1 ≤ k2) :
    binOp1dBinIdx nbin kmin kmax k1 ≤ binOp1dBinIdx nbin kmin kmax k2 := by
  unfold binOp1dBinIdx
  by_cases h : kmax = kmin
  · rw [if_pos h, if_pos h]
  · rw [if_neg h, if_neg h]
    have hd : 0 < kmax - kmin := by omega
    exact Int.ediv_le_ediv hd
      (mul_le_mul_of_nonneg_right (by omega) (by positivity))

/-! ### The binning-data invariants of spec section 8 -/

/-- Invariants claimed for the result of every sort/bin operation over
`[b, e)`: the permutation vector is a bijection on `[b, e)` (a rearrangement
of the index range, without duplicates, with all values in range, of length
`e - b`), `offsets[0] = 0`, the offsets satisfy the prefix-sum recurrence,
and the counts sum to `e - b`. -/
def BinningInvariants (bd : BinningData) (b e : ℕ) : Prop :=
  bd.permuteVector.Perm (rangeList b e) ∧
  bd.permuteVector.Nodup ∧
  (∀ i ∈ bd.permuteVector, b ≤ i ∧ i < e) ∧
  bd.permuteVector.length = e - b ∧
  bd.offsets.getD 0 0 = 0 ∧
  (∀ j, j + 1 < bd.numBin →
    bd.offsets.getD (j + 1) 0 = bd.offsets.getD j 0 + bd.counts.getD j 0) ∧
  bd.counts.sum = e - b

theorem binCounts_length (keys : ℕ → κ) (comp : Comparator κ) (b e : ℕ) :
    (binCounts keys comp b e).length = comp.maxBins := by
  unfold binCounts
  simp

theorem createPermuteVector_invariants (keys : ℕ → κ) (comp : Comparator κ)
    (swb : Bool) (b e : ℕ)
    (h : ∀ i, b ≤ i → i < e →
      0 ≤ comp.binIdx (keys i) ∧ comp.binIdx (keys i) < (comp.maxBins : ℤ)) :
    BinningInvariants (createPermuteVector keys comp swb b e) b e := by
  have hperm := permuteVec_perm_rangeList keys comp swb b e h
  unfold BinningInvariants
  dsimp only [createPermuteVector, BinningData.numBin]
  refine ⟨hperm, ?_, ?_, ?_, ?_, ?_, ?_⟩
  · exact hperm.nodup_iff.mpr (nodup_rangeList b e)
  · intro i hi
    exact mem_rangeList.mp (hperm.mem_iff.mp hi)
  · rw [hperm.length_eq, length_rangeList]
  · exact binOffsets_getD_zero _
  · intro j hj
    exact binOffsets_getD_succ _ j hj
  · rw [← permuteVec_length_eq_counts_sum keys comp swb b e,
        hperm.length_eq, length_rangeList]

theorem kokkosBinSort1d_inRange (keys : ℕ → ℤ) (nbin : ℕ) (b e : ℕ) :
    ∀ i, b ≤ i → i < e →
      0 ≤ (binOp1d nbin (keyMinMax keys b e).1 (keyMinMax keys b e).2).binIdx
            (keys i) ∧
      (binOp1d nbin (keyMinMax keys b e).1 (keyMinMax keys b e).2).binIdx
          (keys i) <
        ((binOp1d nbin (keyMinMax keys b e).1
            (keyMinMax keys b e).2).maxBins : ℤ) := by
  intro i h1 h2
  have hlo := keyMinMax_fst_le keys b e i h1 h2
  have hhi := le_keyMinMax_snd keys b e i h1 h2
  constructor
  · exact binOp1dBinIdx_nonneg nbin _ _ _ hlo hhi
  · have := binOp1dBinIdx_lt nbin _ _ _ hlo hhi
    unfold binOp1d
    simpa using this

/-! ### Sortedness of the permutation produced with within-bin ordering -/

theorem sorted_flatten (ls : List (List ℤ))
    (h1 : ∀ l ∈ ls, List.Sorted (fun x y => x ≤ y) l)
    (h2 : List.Pairwise (fun l1 l2 => ∀ x ∈ l1, ∀ y ∈ l2, x ≤ y) ls) :
    List.Sorted (fun x y => x ≤ y) ls.flatten := by
  induction ls with
  | nil => simp [List.Sorted]
  | cons l ls ih =>
    rw [List.flatten_cons]
    obtain ⟨hhead, htail⟩ := List.pairwise_cons.mp h2
    show List.Pairwise _ _
    rw [List.pairwise_append]
    refine ⟨h1 l (List.mem_cons_self _ _), ?_, ?_⟩
    · exact ih (fun l' hl' => h1 l' (List.mem_cons_of_mem _ hl')) htail
    · intro x hx y hy
      obtain ⟨l2, hl2, hyl2⟩ := List.mem_flatten.mp hy
      exact hhead l2 hl2 x hx y hyl2

theorem withinBinOrder_mapped_sorted (keys : ℕ → ℤ) (nbin : ℕ)
    (kmin kmax : ℤ) (l : List ℕ) :
    List.Sorted (fun x y => x ≤ y)
      ((withinBinOrder keys (binOp1d nbin kmin kmax) true l).map keys) := by
  unfold withinBinOrder
  rw [if_pos rfl]
  set r : ℕ → ℕ → Prop :=
    fun i j => (binOp1d nbin kmin kmax).ltKeys (keys j) (keys i) = false
    with hr
  have hr' : ∀ i j, r i j ↔ keys i ≤ keys j := by
    intro i j
    rw [hr]
    simp [binOp1d, decide_eq_false_iff_not, not_lt]
  haveI : IsTotal ℕ r := ⟨by
    intro a b
    rw [hr' a b, hr' b a]
    exact le_total _ _⟩
  haveI : IsTrans ℕ r := ⟨by
    intro a b c hab hbc
    rw [hr' a b] at hab
    rw [hr' b c] at hbc
    rw [hr' a c]
    exact le_trans hab hbc⟩
  have hs := List.sorted_insertionSort r l
  exact List.Pairwise.map keys (fun a b hab => (hr' a b).mp hab) hs

theorem permuteVec_mapped_sorted (keys : ℕ → ℤ) (nbin : ℕ) (b e : ℕ) :
    List.Sorted (fun x y => x ≤ y)
      ((permuteVec keys
          (binOp1d nbin (keyMinMax keys b e).1 (keyMinMax keys b e).2)
          true b e).map keys) := by
  set kmin := (keyMinMax keys b e).1 with hkmin
  set kmax := (keyMinMax keys b e).2 with hkmax
  set comp := binOp1d nbin kmin kmax with hcomp
  unfold permuteVec binFibers
  rw [List.map_flatten, List.map_map]
  apply sorted_flatten
  · intro l' hl'
    obtain ⟨bin, _, rfl⟩ := List.mem_map.mp hl'
    exact withinBinOrder_mapped_sorted keys nbin kmin kmax _
  · rw [List.pairwise_map]
    refine (List.pairwise_lt_range _).imp ?_
    intro b1 b2 hb12 x hx y hy
    simp only [Function.comp_apply] at hx hy
    obtain ⟨i, hi, rfl⟩ := List.mem_map.mp hx
    obtain ⟨j, hj, rfl⟩ := List.mem_map.mp hy
    rw [mem_withinBinOrder] at hi hj
    unfold binMembers at hi hj
    obtain ⟨hirange, hibin⟩ := List.mem_filter.mp hi
    obtain ⟨hjrange, hjbin⟩ := List.mem_filter.mp hj
    have hibin' : comp.binIdx (keys i) = (b1 : ℤ) := of_decide_eq_true hibin
    have hjbin' : comp.binIdx (keys j) = (b2 : ℤ) := of_decide_eq_true hjbin
    obtain ⟨hi1, hi2⟩ := mem_rangeList.mp hirange
    obtain ⟨hj1, hj2⟩ := mem_rangeList.mp hjrange
    by_contra hlt
    push_neg at hlt
    have hjlo : kmin ≤ keys j := keyMinMax_fst_le keys b e j hj1 hj2
    have hjhi : keys j ≤ kmax := le_keyMinMax_snd keys b e j hj1 hj2
    have hilo : kmin ≤ keys i := keyMinMax_fst_le keys b e i hi1 hi2
    have hihi : keys i ≤ kmax := le_keyMinMax_snd keys b e i hi1 hi2
    have hmono := binOp1dBinIdx_mono nbin kmin kmax (keys j) (keys i)
      (le_trans hjlo hjhi) hjlo (le_of_lt hlt)
    have : (b2 : ℤ) ≤ (b1 : ℤ) := by
      rw [← hibin', ← hjbin']
      exact hmono
    omega

/-- A rearrangement of `[0, N)` whose key image is sorted, for strictly
decreasing keys, must be the reversal `p ↦ N - 1 - p`. -/
theorem perm_getD_eq_reverse (perm : List ℕ) (keys : ℕ → ℤ) (N : ℕ)
    (hp : perm.Perm (List.range N))
    (hs : List.Sorted (fun x y => x ≤ y) (perm.map keys))
    (hanti : ∀ p q, p < q → q < N → keys q < keys p) :
    ∀ p, p < N → ∀ d, perm.getD p d = N - 1 - p := by
  have hlen : perm.length = N := by rw [hp.length_eq, List.length_range]
  have hrevsorted :
      List.Sorted (fun x y => x ≤ y) ((List.range N).reverse.map keys) := by
    show List.Pairwise _ _
    rw [List.pairwise_map, List.pairwise_reverse]
    refine List.Pairwise.imp_of_mem ?_ (List.pairwise_lt_range N)
    intro a b _ hb hab
    exact le_of_lt (hanti a b hab (List.mem_range.mp hb))
  have hpm : perm.map keys = (List.range N).reverse.map keys :=
    List.eq_of_perm_of_sorted
      ((hp.map keys).trans (((List.reverse_perm (List.range N)).map keys).symm))
      hs hrevsorted
  intro p hpN d
  have hplen : p < perm.length := by omega
  have h2 : p < (perm.map keys).length := by simpa using hplen
  have h3 : p < ((List.range N).reverse.map keys).length := by
    simp
    omega
  have h4 : (perm.map keys).getD p 0 =
      ((List.range N).reverse.map keys).getD p 0 := by rw [hpm]
  rw [List.getD_eq_getElem _ _ h2, List.getElem_map,
      List.getD_eq_getElem _ _ h3, List.getElem_map,
      List.getElem_reverse, List.getElem_range] at h4
  have hbound : (List.range N).length - 1 - p = N - 1 - p := by simp
  rw [hbound] at h4
  have hq4 : keys (perm.getD p 0) = keys (N - 1 - p) := by
    rw [List.getD_eq_getElem _ _ hplen]
    exact h4
  have hqmem : perm.getD p 0 < N := by
    rw [List.getD_eq_getElem _ _ hplen]
    exact List.mem_range.mp (hp.mem_iff.mp (List.getElem_mem hplen))
  have heq : perm.getD p 0 = N - 1 - p := by
    by_contra hne
    rcases Nat.lt_or_ge (perm.getD p 0) (N - 1 - p) with hlt | hge
    · have := hanti (perm.getD p 0) (N - 1 - p) hlt (by omega)
      omega
    · have hlt : N - 1 - p < perm.getD p 0 := by omega
      have := hanti (N - 1 - p) (perm.getD p 0) hlt hqmem
      omega
  have hfinal : perm.getD p d = perm.getD p 0 := by
    rw [List.getD_eq_getElem _ _ hplen, List.getD_eq_getElem _ _ hplen]
  rw [hfinal, heq]

/-! ### The end-to-end scenarios of the unit tests -/

theorem scenarioKeys_strictAnti (N : ℕ) :
    ∀ p q, p < q → q < N → scenarioKeys N q < scenarioKeys N p := by
  intro p q h1 h2
  unfold scenarioKeys
  omega

theorem keyMinMax_scenario (N : ℕ) (hN : 1 ≤ N) :
    keyMinMax (scenarioKeys N) 0 N = (0, (N : ℤ) - 1) := by
  have hN' : 0 < N := hN
  unfold keyMinMax
  rw [if_pos hN']
  have hkey : ∀ i : ℕ, i < N → scenarioKeys N i = (N : ℤ) - 1 - i := by
    intro i _
    rfl
  simp only [Prod.mk.injEq]
  constructor
  · refine le_antisymm ?_ ?_
    · have hmem : N - 1 ∈ rangeList 0 N := mem_rangeList.mpr ⟨by omega, by omega⟩
      have := foldl_min_le_mem (scenarioKeys N) (rangeList 0 N) (N - 1) hmem
        (scenarioKeys N 0)
      have hval : scenarioKeys N (N - 1) = 0 := by
        unfold scenarioKeys
        omega
      rw [hval] at this
      exact this
    · refine le_foldl_min (scenarioKeys N) (rangeList 0 N) 0 ?_ _ ?_
      · intro i hi
        have := (mem_rangeList.mp hi).2
        unfold scenarioKeys
        omega
      · unfold scenarioKeys
        omega
  · refine le_antisymm ?_ ?_
    · refine foldl_max_le (scenarioKeys N) (rangeList 0 N) ((N : ℤ) - 1) ?_ _ ?_
      · intro i hi
        unfold scenarioKeys
        omega
      · unfold scenarioKeys
        omega
    · have hmem : 0 ∈ rangeList 0 N := mem_rangeList.mpr ⟨le_refl 0, by omega⟩
      have := le_foldl_max_mem (scenarioKeys N) (rangeList 0 N) 0 hmem
        (scenarioKeys N 0)
      have hval : scenarioKeys N 0 = (N : ℤ) - 1 := by
        unfold scenarioKeys
        omega
      exact le_trans (le_of_eq hval.symm) this

theorem filter_eq_range (N c : ℕ) (h : c < N) :
    (List.range N).filter (fun i => decide (i = c)) = [c] := by
  induction N with
  | zero => omega
  | succ n ih =>
    rw [List.range_succ, List.filter_append]
    rcases Nat.lt_or_ge c n with h1 | h1
    · rw [ih h1]
      have hne : ¬(n = c) := by omega
      have hfil : List.filter (fun i => decide (i = c)) [n] = [] := by
        simp [hne]
      rw [hfil]
      simp
    · have hc : c = n := by omega
      subst hc
      have h2 : List.filter (fun i => decide (i = c)) (List.range c) = [] := by
        rw [List.filter_eq_nil_iff]
        intro a ha
        have := List.mem_range.mp ha
        simp
        omega
      rw [h2]
      simp

theorem withinBinOrder_false (keys : ℕ → κ) (comp : Comparator κ)
    (l : List ℕ) : withinBinOrder keys comp false l = l := rfl

theorem flatten_map_singleton (l : List ℕ) (g : ℕ → ℕ) :
    (l.map (fun x => [g x])).flatten = l.map g := by
  induction l with
  | nil => rfl
  | cons x xs ih => simp [ih]

theorem binMembers_scenario (N bin : ℕ) (hN : 2 ≤ N) (hbin : bin < N) :
    binMembers (scenarioKeys N) (binOp1d (N - 1) 0 ((N : ℤ) - 1)) 0 N bin =
      [N - 1 - bin] := by
  unfold binMembers
  rw [rangeList_zero]
  rw [List.filter_congr (q := fun i => decide (i = N - 1 - bin)) ?hcong]
  · exact filter_eq_range N (N - 1 - bin) (by omega)
  case hcong =>
    intro i hi
    have hiN := List.mem_range.mp hi
    rw [decide_eq_decide]
    show binOp1dBinIdx (N - 1) 0 ((N : ℤ) - 1) (scenarioKeys N i) = (bin : ℤ)
      ↔ _
    unfold binOp1dBinIdx scenarioKeys
    rw [if_neg (by omega)]
    have hcast : ((N - 1 : ℕ) : ℤ) = (N : ℤ) - 1 := by omega
    rw [hcast, sub_zero, sub_zero,
        Int.mul_ediv_cancel _ (by omega : (N : ℤ) - 1 ≠ 0)]
    constructor
    · intro h
      omega
    · intro h
      omega

theorem binOp1d_scenario_maxBins (N : ℕ) (hN : 1 ≤ N) :
    (binOp1d (N - 1) 0 ((N : ℤ) - 1)).maxBins = N := by
  show N - 1 + 1 = N
  omega

theorem binCounts_scenario (N : ℕ) (hN : 2 ≤ N) :
    binCounts (scenarioKeys N) (binOp1d (N - 1) 0 ((N : ℤ) - 1)) 0 N =
      List.replicate N 1 := by
  unfold binCounts
  rw [binOp1d_scenario_maxBins N (by omega)]
  have h1 : ∀ bin ∈ List.range N,
      (binMembers (scenarioKeys N) (binOp1d (N - 1) 0 ((N : ℤ) - 1)) 0 N
        bin).length = (fun _ : ℕ => 1) bin := by
    intro bin hbin
    rw [binMembers_scenario N bin hN (List.mem_range.mp hbin)]
    rfl
  rw [List.map_congr_left h1, List.map_const']
  simp

theorem binOffsets_replicate_one_getD (N p : ℕ) (hp : p < N) :
    (binOffsets (List.replicate N 1)).getD p 0 = p := by
  unfold binOffsets
  rw [List.getD_eq_getElem _ _ (by simpa using hp)]
  simp only [List.getElem_map, List.getElem_range, List.length_replicate]
  rw [List.take_replicate, List.sum_replicate]
  simp
  omega

theorem permuteVec_scenario (N : ℕ) (hN : 2 ≤ N) :
    permuteVec (scenarioKeys N) (binOp1d (N - 1) 0 ((N : ℤ) - 1)) false 0 N =
      (List.range N).map (fun bin => N - 1 - bin) := by
  unfold permuteVec binFibers
  rw [binOp1d_scenario_maxBins N (by omega)]
  have h1 : ∀ bin ∈ List.range N,
      withinBinOrder (scenarioKeys N) (binOp1d (N - 1) 0 ((N : ℤ) - 1)) false
          (binMembers (scenarioKeys N) (binOp1d (N - 1) 0 ((N : ℤ) - 1)) 0 N
            bin) =
        (fun bin => [N - 1 - bin]) bin := by
    intro bin hbin
    rw [withinBinOrder_false,
        binMembers_scenario N bin hN (List.mem_range.mp hbin)]
  rw [List.map_congr_left h1, flatten_map_singleton]

/-! ### The degenerate range `begin = end` -/

theorem rangeList_eq_nil (b e : ℕ) (h : e ≤ b) : rangeList b e = [] := by
  unfold rangeList
  have he : e - b = 0 := by omega
  rw [he]
  rfl

theorem withinBinOrder_nil (keys : ℕ → κ) (comp : Comparator κ) (swb : Bool) :
    withinBinOrder keys comp swb [] = [] := by
  cases swb <;> rfl

theorem flatten_eq_nil_of_all_nil (ls : List (List ℕ))
    (h : ∀ l ∈ ls, l = []) : ls.flatten = [] := by
  induction ls with
  | nil => rfl
  | cons l ls ih =>
    rw [List.flatten_cons, h l (List.mem_cons_self _ _),
        ih (fun l' hl' => h l' (List.mem_cons_of_mem _ hl'))]
    rfl

theorem binCounts_empty (keys : ℕ → κ) (comp : Comparator κ) (b e : ℕ)
    (h : e ≤ b) :
    binCounts keys comp b e = List.replicate comp.maxBins 0 := by
  unfold binCounts binMembers
  rw [rangeList_eq_nil b e h]
  have h1 : ∀ bin ∈ List.range comp.maxBins,
      (List.filter
          (fun i => decide (comp.binIdx (keys i) = (bin : ℤ))) []).length =
        (fun _ : ℕ => 0) bin := by
    intro bin _
    rfl
  rw [List.map_congr_left h1, List.map_const']
  simp

theorem permuteVec_empty (keys : ℕ → κ) (comp : Comparator κ) (swb : Bool)
    (b e : ℕ) (h : e ≤ b) :
    permuteVec keys comp swb b e = [] := by
  unfold permuteVec binFibers binMembers
  rw [rangeList_eq_nil b e h]
  refine flatten_eq_nil_of_all_nil _ ?_
  intro l hl
  obtain ⟨bin, _, rfl⟩ := List.mem_map.mp hl
  rw [List.filter_nil, withinBinOrder_nil]

theorem sortMember_empty (aosoa : AoSoA3 α β γ) (perm : List ℕ) (b e : ℕ)
    (h : e ≤ b) :
    sortMember aosoa perm b e = aosoa := by
  unfold sortMember sortSlice
  have hc : ∀ {δ : Type} (col : ℕ → δ),
      (fun i => if b ≤ i ∧ i < e then col (perm.getD (i - b) i) else col i) =
        col := by
    intro δ col
    funext i
    rw [if_neg (by omega)]
  rw [hc, hc, hc]

/-! ### The degenerate key range `key_max = key_min` -/

theorem binMembers_degenerate_zero (keys : ℕ → ℤ) (nbin : ℕ) (kmin kmax : ℤ)
    (hdeg : kmax = kmin) (b e : ℕ) :
    binMembers keys (binOp1d nbin kmin kmax) b e 0 = rangeList b e := by
  unfold binMembers
  rw [List.filter_eq_self.mpr]
  intro a _
  simp [binOp1d, binOp1dBinIdx, hdeg]

theorem binMembers_degenerate_pos (keys : ℕ → ℤ) (nbin : ℕ) (kmin kmax : ℤ)
    (hdeg : kmax = kmin) (b e j : ℕ) (hj : 1 ≤ j) :
    binMembers keys (binOp1d nbin kmin kmax) b e j = [] := by
  unfold binMembers
  rw [List.filter_eq_nil_iff]
  intro a _
  simp [binOp1d, binOp1dBinIdx, hdeg]
  omega

/-! ### Claim theorems -/

/-- C1: evaluation of both `sortByKeyWithComparator` overloads at a concrete
input.  The sub-range overload (source lines 337-349) passes
`create_data_only = true` and `sort_within_bins = false`, so it leaves every
member of the collection untouched and discards the binning data: member 1
still reads 5, 3 after the call.  The whole-collection overload (lines
370-380) passes `create_data_only = false` and `sort_within_bins = true` and
does reorder the members to 3, 5.  The sub-range overload therefore does not
behave as a sort entry point, contradicting its own documentation. -/
theorem claim_C1_subrange_comparator_sort_is_noop :
    (sortByKeyWithComparatorRange exampleAoSoA exampleKeys exampleComp
        0 2).c1 0 = 5 ∧
    (sortByKeyWithComparatorRange exampleAoSoA exampleKeys exampleComp
        0 2).c1 1 = 3 ∧
    (sortByKeyWithComparatorAll exampleAoSoA exampleKeys exampleComp).c1 0 =
      3 ∧
    (sortByKeyWithComparatorAll exampleAoSoA exampleKeys exampleComp).c1 1 =
      5 := by
  refine ⟨?_, ?_, ?_, ?_⟩ <;> decide

/-- C2: for every sort/bin operation over a sub-range `[b, e)` the returned
binning data satisfies the permutation-bijection property, `offsets[0] = 0`,
the offset/count prefix-sum recurrence and `sum(counts) = e - b`.  The first
conjunct covers the generic-comparator engine under the `Kokkos::BinSort`
comparator contract (every key is assigned an in-range bin); the second
covers the equal-width 1-d engine behind `sortByKey`/`binByKey`
unconditionally. -/
theorem claim_C2_binning_invariants :
    (∀ {α β γ κ : Type} (aosoa : AoSoA3 α β γ) (keys : ℕ → κ)
        (comp : Comparator κ) (cdo swb : Bool) (b e : ℕ),
      (∀ i, b ≤ i → i < e →
        0 ≤ comp.binIdx (keys i) ∧
          comp.binIdx (keys i) < (comp.maxBins : ℤ)) →
      BinningInvariants (kokkosBinSort aosoa keys comp cdo swb b e).2 b e) ∧
    (∀ {α β γ : Type} (aosoa : AoSoA3 α β γ) (keys : ℕ → ℤ) (nbin : ℕ)
        (cdo swb : Bool) (b e : ℕ),
      BinningInvariants (kokkosBinSort1d aosoa keys nbin cdo swb b e).2
        b e) := by
  constructor
  · intro α β γ κ aosoa keys comp cdo swb b e h
    exact createPermuteVector_invariants keys comp swb b e h
  · intro α β γ aosoa keys nbin cdo swb b e
    exact createPermuteVector_invariants keys _ swb b e
      (kokkosBinSort1d_inRange keys nbin b e)

/-- Witness for C2 at a concrete input. -/
theorem claim_C2_witness :
    BinningInvariants
      (kokkosBinSort exampleAoSoA exampleKeys exampleComp false false
        0 2).2 0 2 ∧
    BinningInvariants
      (kokkosBinSort1d exampleAoSoA exampleKeys 1 false false 0 2).2 0 2 := by
  constructor
  · refine claim_C2_binning_invariants.1 exampleAoSoA exampleKeys exampleComp
      false false 0 2 ?_
    intro i h1 h2
    interval_cases i
    · exact ⟨by decide, by decide⟩
    · exact ⟨by decide, by decide⟩
  · exact claim_C2_binning_invariants.2 exampleAoSoA exampleKeys 1 false
      false 0 2

/-- C4: a bin/sort call with `create_data_only = true` leaves every member
column of the collection unchanged, and returns exactly the binning data
that the same call with `create_data_only = false` returns, for the generic
engine and for every public entry point taking the flag. -/
theorem claim_C4_data_only_frame :
    (∀ {α β γ κ : Type} (aosoa : AoSoA3 α β γ) (keys : ℕ → κ)
        (comp : Comparator κ) (swb : Bool) (b e : ℕ),
      (kokkosBinSort aosoa keys comp true swb b e).1 = aosoa ∧
      (kokkosBinSort aosoa keys comp true swb b e).2 =
        (kokkosBinSort aosoa keys comp false swb b e).2) ∧
    (∀ {α β γ κ : Type} (aosoa : AoSoA3 α β γ) (keys : ℕ → κ)
        (comp : Comparator κ) (b e : ℕ),
      (binByKeyWithComparator aosoa keys comp true b e).1 = aosoa ∧
      (binByKeyWithComparator aosoa keys comp true b e).2 =
        (binByKeyWithComparator aosoa keys comp false b e).2) ∧
    (∀ {α β γ : Type} (aosoa : AoSoA3 α β γ) (keys : ℕ → ℤ) (nbin : ℕ)
        (b e : ℕ),
      (binByKey aosoa keys nbin true b e).1 = aosoa ∧
      (binByKey aosoa keys nbin true b e).2 =
        (binByKey aosoa keys nbin false b e).2) ∧
    (∀ {α γ : Type} (aosoa : AoSoA3 α ℤ γ) (nbin : ℕ) (b e : ℕ),
      (binByMember1 aosoa nbin true b e).1 = aosoa ∧
      (binByMember1 aosoa nbin true b e).2 =
        (binByMember1 aosoa nbin false b e).2) ∧
    (∀ {β γ : Type} (aosoa : AoSoA3 (ℚ × ℚ × ℚ) β γ) (b e : ℕ)
        (dx dy dz x0 y0 z0 x1 y1 z1 : ℚ),
      (binByCartesianGrid3d aosoa true b e dx dy dz x0 y0 z0 x1 y1 z1).1 =
        aosoa ∧
      (binByCartesianGrid3d aosoa true b e dx dy dz x0 y0 z0 x1 y1 z1).2 =
        (binByCartesianGrid3d aosoa false b e dx dy dz x0 y0 z0
          x1 y1 z1).2) := by
  refine ⟨?_, ?_, ?_, ?_, ?_⟩ <;> intros <;> exact ⟨rfl, rfl⟩

/-- C8: a bin call over the degenerate range `begin = end` produces all-empty
bins and a zero-length permutation, leaves the collection unchanged, and
examines no key (the result does not depend on the key values at all).  The
number of bins for an explicit bin count `nbin` is `nbin + 1`, not `nbin`
(see the accompanying counterexample). -/
theorem claim_C8_empty_range {α β γ : Type} (aosoa : AoSoA3 α β γ)
    (keys keys' : ℕ → ℤ) (nbin : ℕ) (cdo : Bool) (e : ℕ) :
    (binByKey aosoa keys nbin cdo e e).2.counts =
      List.replicate (nbin + 1) 0 ∧
    (binByKey aosoa keys nbin cdo e e).2.permuteVector = [] ∧
    (binByKey aosoa keys nbin cdo e e).1 = aosoa ∧
    (binByKey aosoa keys nbin cdo e e).2 =
      (binByKey aosoa keys' nbin cdo e e).2 := by
  refine ⟨?_, ?_, ?_, ?_⟩
  · exact binCounts_empty keys _ e e (le_refl e)
  · exact permuteVec_empty keys _ false e e (le_refl e)
  · show (if cdo then aosoa else sortMember aosoa _ e e) = aosoa
    cases cdo
    · exact sortMember_empty aosoa _ e e (le_refl e)
    · rfl
  · show createPermuteVector keys _ false e e =
      createPermuteVector keys' _ false e e
    unfold createPermuteVector
    rw [binCounts_empty keys _ e e (le_refl e),
        binCounts_empty keys' _ e e (le_refl e),
        permuteVec_empty keys _ false e e (le_refl e),
        permuteVec_empty keys' _ false e e (le_refl e)]
    rfl

/-- Counterexample to C8 as stated: with an explicit bin count of 3 and an
empty range, the returned binning data has 4 bins, not 3 (the 1-d engine
always allocates `nbin + 1` bins). -/
theorem claim_C8_counterexample :
    ¬((binByKey exampleAoSoA exampleKeys 3 true 0 0).2.numBin = 3) := by
  decide

/-- C9: when the discovered key bounds coincide (`key_max = key_min`), the
equal-width binning is well defined: every element of `[b, e)` is assigned
bin 0, bin 0 holds all `e - b` elements, every other bin is empty, and the
permutation is the identity enumeration of `[b, e)`. -/
theorem claim_C9_degenerate_key_range {α β γ : Type} (aosoa : AoSoA3 α β γ)
    (keys : ℕ → ℤ) (nbin : ℕ) (cdo : Bool) (b e : ℕ) (hbe : b < e)
    (hdeg : (keyMinMax keys b e).1 = (keyMinMax keys b e).2) :
    (∀ i, b ≤ i → i < e →
      (binOp1d nbin (keyMinMax keys b e).1
          (keyMinMax keys b e).2).binIdx (keys i) = 0) ∧
    (binByKey aosoa keys nbin cdo b e).2.counts.getD 0 0 = e - b ∧
    (∀ j, 1 ≤ j →
      (binByKey aosoa keys nbin cdo b e).2.counts.getD j 0 = 0) ∧
    (binByKey aosoa keys nbin cdo b e).2.permuteVector = rangeList b e := by
  refine ⟨?_, ?_, ?_, ?_⟩
  · intro i _ _
    show binOp1dBinIdx nbin (keyMinMax keys b e).1 (keyMinMax keys b e).2
        (keys i) = 0
    unfold binOp1dBinIdx
    rw [if_pos hdeg.symm]
  · show (binCounts keys
        (binOp1d nbin (keyMinMax keys b e).1 (keyMinMax keys b e).2)
        b e).getD 0 0 = e - b
    unfold binCounts
    rw [List.getD_eq_getElem _ _ (by simp [binOp1d])]
    simp only [List.getElem_map, List.getElem_range]
    rw [binMembers_degenerate_zero keys nbin _ _ hdeg.symm b e,
        length_rangeList]
  · intro j hj
    show (binCounts keys
        (binOp1d nbin (keyMinMax keys b e).1 (keyMinMax keys b e).2)
        b e).getD j 0 = 0
    unfold binCounts
    rcases Nat.lt_or_ge j (nbin + 1) with hjB | hjB
    · rw [List.getD_eq_getElem _ _ (by simpa [binOp1d] using hjB)]
      simp only [List.getElem_map, List.getElem_range]
      rw [binMembers_degenerate_pos keys nbin _ _ hdeg.symm b e j hj]
      rfl
    · rw [List.getD_eq_default]
      simpa [binOp1d] using hjB
  · show permuteVec keys
        (binOp1d nbin (keyMinMax keys b e).1 (keyMinMax keys b e).2)
        false b e = rangeList b e
    unfold permuteVec binFibers
    show ((List.range (nbin + 1)).map _).flatten = _
    rw [List.range_succ_eq_map, List.map_cons, List.flatten_cons,
        withinBinOrder_false,
        binMembers_degenerate_zero keys nbin _ _ hdeg.symm b e]
    rw [flatten_eq_nil_of_all_nil _ ?hnil, List.append_nil]
    case hnil =>
      intro l hl
      rw [List.map_map] at hl
      obtain ⟨x, _, rfl⟩ := List.mem_map.mp hl
      simp only [Function.comp_apply]
      rw [withinBinOrder_false,
          binMembers_degenerate_pos keys nbin _ _ hdeg.symm b e _
            (by omega)]

/-- Witness for C9 at a concrete input: constant keys over `[0, 2)`. -/
theorem claim_C9_witness :
    (∀ i, 0 ≤ i → i < 2 →
      (binOp1d 3 (keyMinMax constantKeys 0 2).1
          (keyMinMax constantKeys 0 2).2).binIdx (constantKeys i) = 0) ∧
    (binByKey exampleAoSoA constantKeys 3 true 0 2).2.counts.getD 0 0 =
      2 - 0 ∧
    (∀ j, 1 ≤ j →
      (binByKey exampleAoSoA constantKeys 3 true 0 2).2.counts.getD j 0 =
        0) ∧
    (binByKey exampleAoSoA constantKeys 3 true 0 2).2.permuteVector =
      rangeList 0 2 :=
  claim_C9_degenerate_key_range exampleAoSoA constantKeys 3 true 0 2
    (by decide) (by decide)

theorem sortSlice_apply (perm : List ℕ) (b e : ℕ) {α : Type} (col : ℕ → α)
    (i : ℕ) (h : b ≤ i ∧ i < e) :
    sortSlice perm b e col i = col (perm.getD (i - b) i) := by
  unfold sortSlice
  rw [if_pos h]

/-- C3: with the sort entry point (within-bin ordering on,
`nbin = (end - begin) / 2`), the key values read through the returned
permutation are non-decreasing end to end, for every collection, key view
and sub-range; in particular, in the 3453-particle reverse-key scenario of
`sort_by_key_test`, the particle at new index `p` has member-1 value `p`,
member-0 values `p + i`, and came from original index `N - 1 - p`. -/
theorem claim_C3_full_sort_ordering :
    (∀ {α β γ : Type} (aosoa : AoSoA3 α β γ) (keys : ℕ → ℤ) (b e : ℕ),
      List.Sorted (fun x y => x ≤ y)
        (((sortByKey aosoa keys b e).2.permuteVector).map keys)) ∧
    (∀ N p, p < N →
      (sortByKeyAll (scenarioAoSoA N) (scenarioKeys N)).1.c1 p = (p : ℤ) ∧
      (∀ i : ℕ,
        (sortByKeyAll (scenarioAoSoA N) (scenarioKeys N)).1.c0 p i =
          (p : ℤ) + (i : ℤ)) ∧
      (sortByKeyAll (scenarioAoSoA N) (scenarioKeys N)).2.permutation p =
        N - 1 - p) := by
  constructor
  · intro α β γ aosoa keys b e
    exact permuteVec_mapped_sorted keys ((e - b) / 2) b e
  · intro N p hp
    have hrange := kokkosBinSort1d_inRange (scenarioKeys N) (N / 2) 0 N
    have hperm := permuteVec_perm_rangeList (scenarioKeys N)
      (binOp1d (N / 2) (keyMinMax (scenarioKeys N) 0 N).1
        (keyMinMax (scenarioKeys N) 0 N).2) true 0 N hrange
    rw [rangeList_zero] at hperm
    have hs := permuteVec_mapped_sorted (scenarioKeys N) (N / 2) 0 N
    have hgetD := perm_getD_eq_reverse _ (scenarioKeys N) N hperm hs
      (scenarioKeys_strictAnti N)
    refine ⟨?_, ?_, ?_⟩
    · show sortSlice
        (permuteVec (scenarioKeys N)
          (binOp1d (N / 2) (keyMinMax (scenarioKeys N) 0 N).1
            (keyMinMax (scenarioKeys N) 0 N).2) true 0 N)
        0 N ((scenarioAoSoA N).c1) p = (p : ℤ)
      rw [sortSlice_apply _ 0 N _ p ⟨Nat.zero_le p, hp⟩, Nat.sub_zero,
          hgetD p hp p]
      show (N : ℤ) - 1 - ((N - 1 - p : ℕ) : ℤ) = (p : ℤ)
      omega
    · intro i
      show sortSlice
        (permuteVec (scenarioKeys N)
          (binOp1d (N / 2) (keyMinMax (scenarioKeys N) 0 N).1
            (keyMinMax (scenarioKeys N) 0 N).2) true 0 N)
        0 N ((scenarioAoSoA N).c0) p i = (p : ℤ) + (i : ℤ)
      rw [sortSlice_apply _ 0 N _ p ⟨Nat.zero_le p, hp⟩, Nat.sub_zero,
          hgetD p hp p]
      show (N : ℤ) - 1 - ((N - 1 - p : ℕ) : ℤ) + (i : ℤ) = (p : ℤ) + (i : ℤ)
      omega
    · exact hgetD p hp 0

/-- Witness for C3 at the concrete scenario size 3453 and new index 7. -/
theorem claim_C3_witness :
    List.Sorted (fun x y => x ≤ y)
      (((sortByKey exampleAoSoA exampleKeys 0 2).2.permuteVector).map
        exampleKeys) ∧
    (sortByKeyAll (scenarioAoSoA 3453) (scenarioKeys 3453)).1.c1 7 =
      (7 : ℤ) ∧
    (sortByKeyAll (scenarioAoSoA 3453) (scenarioKeys 3453)).1.c0 7 2 =
      (7 : ℤ) + (2 : ℤ) ∧
    (sortByKeyAll (scenarioAoSoA 3453) (scenarioKeys 3453)).2.permutation 7 =
      3453 - 1 - 7 := by
  have h := claim_C3_full_sort_ordering.2 3453 7 (by decide)
  exact ⟨claim_C3_full_sort_ordering.1 exampleAoSoA exampleKeys 0 2,
    h.1, h.2.1 2, h.2.2⟩

/-- C5: binning `N` reverse-keyed particles with `nbin = N - 1` yields `N`
bins, each of size 1, with `binOffset(p) = p` and
`permutation(p) = N - 1 - p`, matching `bin_by_key_test`. -/
theorem claim_C5_bin_by_key_inverse_scenario (N : ℕ) (hN : 1 ≤ N) (p : ℕ)
    (hp : p < N) :
    (binByKey (scenarioAoSoA N) (scenarioKeys N) (N - 1) false
        0 N).2.numBin = N ∧
    (binByKey (scenarioAoSoA N) (scenarioKeys N) (N - 1) false
        0 N).2.binSize p = 1 ∧
    (binByKey (scenarioAoSoA N) (scenarioKeys N) (N - 1) false
        0 N).2.binOffset p = p ∧
    (binByKey (scenarioAoSoA N) (scenarioKeys N) (N - 1) false
        0 N).2.permutation p = N - 1 - p := by
  rcases Nat.lt_or_ge N 2 with hN2 | hN2
  · have hN1 : N = 1 := by omega
    subst hN1
    have hp0 : p = 0 := by omega
    subst hp0
    refine ⟨?_, ?_, ?_, ?_⟩ <;> decide
  · have hmm := keyMinMax_scenario N (by omega)
    have hfst : (keyMinMax (scenarioKeys N) 0 N).1 = 0 := by rw [hmm]
    have hsnd : (keyMinMax (scenarioKeys N) 0 N).2 = (N : ℤ) - 1 := by
      rw [hmm]
    refine ⟨?_, ?_, ?_, ?_⟩
    · show (binCounts (scenarioKeys N)
        (binOp1d (N - 1) (keyMinMax (scenarioKeys N) 0 N).1
          (keyMinMax (scenarioKeys N) 0 N).2) 0 N).length = N
      rw [hfst, hsnd, binCounts_scenario N hN2, List.length_replicate]
    · show (binCounts (scenarioKeys N)
        (binOp1d (N - 1) (keyMinMax (scenarioKeys N) 0 N).1
          (keyMinMax (scenarioKeys N) 0 N).2) 0 N).getD p 0 = 1
      rw [hfst, hsnd, binCounts_scenario N hN2,
          List.getD_eq_getElem _ _ (by simpa using hp),
          List.getElem_replicate]
    · show (binOffsets (binCounts (scenarioKeys N)
        (binOp1d (N - 1) (keyMinMax (scenarioKeys N) 0 N).1
          (keyMinMax (scenarioKeys N) 0 N).2) 0 N)).getD p 0 = p
      rw [hfst, hsnd, binCounts_scenario N hN2]
      exact binOffsets_replicate_one_getD N p hp
    · show (permuteVec (scenarioKeys N)
        (binOp1d (N - 1) (keyMinMax (scenarioKeys N) 0 N).1
          (keyMinMax (scenarioKeys N) 0 N).2) false 0 N).getD p 0 =
        N - 1 - p
      rw [hfst, hsnd, permuteVec_scenario N hN2,
          List.getD_eq_getElem _ _ (by simpa using hp)]
      simp only [List.getElem_map, List.getElem_range]

/-- Witness for C5 at the concrete scenario size 3453 and bin 7. -/
theorem claim_C5_witness :
    (binByKey (scenarioAoSoA 3453) (scenarioKeys 3453) 3452 false
        0 3453).2.numBin = 3453 ∧
    (binByKey (scenarioAoSoA 3453) (scenarioKeys 3453) 3452 false
        0 3453).2.binSize 7 = 1 ∧
    (binByKey (scenarioAoSoA 3453) (scenarioKeys 3453) 3452 false
        0 3453).2.binOffset 7 = 7 ∧
    (binByKey (scenarioAoSoA 3453) (scenarioKeys 3453) 3452 false
        0 3453).2.permutation 7 = 3453 - 1 - 7 :=
  claim_C5_bin_by_key_inverse_scenario 3453 (by decide) 7 (by decide)

/-- C6: the cardinal bin index is the row-major linear index
`i * ny * nz + j * nz + k`, and enumeration with `i` slowest and `k` fastest
(lexicographic order on `(i, j, k)`) visits bins in strictly increasing
linear-index order. -/
theorem claim_C6_cardinal_index_row_major (g : CartesianGrid3dBinningData)
    (i j k i' j' k' : ℤ)
    (hj0 : 0 ≤ j) (hk0 : 0 ≤ k) (hj0' : 0 ≤ j') (hk0' : 0 ≤ k')
    (hj1 : j < g.nbin1) (hk1 : k < g.nbin2)
    (hj1' : j' < g.nbin1) (hk1' : k' < g.nbin2) :
    g.cardinalBinIndex i j k =
      i * g.nbin1 * g.nbin2 + j * g.nbin2 + k ∧
    ((i < i' ∨ (i = i' ∧ (j < j' ∨ (j = j' ∧ k < k')))) →
      g.cardinalBinIndex i j k < g.cardinalBinIndex i' j' k') := by
  have hn1 : 0 < g.nbin1 := lt_of_le_of_lt hj0 hj1
  have hn2 : 0 < g.nbin2 := lt_of_le_of_lt hk0 hk1
  constructor
  · rfl
  · intro hlex
    unfold CartesianGrid3dBinningData.cardinalBinIndex
    rcases hlex with hii | ⟨rfl, hjj | ⟨rfl, hkk⟩⟩
    · nlinarith [mul_le_mul_of_nonneg_right
          (show j ≤ g.nbin1 - 1 by omega) (le_of_lt hn2),
        mul_le_mul_of_nonneg_right (show i + 1 ≤ i' by omega)
          (mul_nonneg (le_of_lt hn1) (le_of_lt hn2)),
        mul_nonneg hj0' (le_of_lt hn2)]
    · nlinarith [mul_le_mul_of_nonneg_right
        (show j + 1 ≤ j' by omega) (le_of_lt hn2)]
    · linarith

/-- Witness for C6 at a concrete grid with bin counts 2, 3, 4 and the bins
`(0,0,1)` and `(1,0,0)`. -/
theorem claim_C6_witness :
    exampleGrid.cardinalBinIndex 0 0 1 =
      0 * exampleGrid.nbin1 * exampleGrid.nbin2 + 0 * exampleGrid.nbin2 +
        1 ∧
    (((0 : ℤ) < 1 ∨
        ((0 : ℤ) = 1 ∧ ((0 : ℤ) < 0 ∨ ((0 : ℤ) = 0 ∧ (1 : ℤ) < 0)))) →
      exampleGrid.cardinalBinIndex 0 0 1 <
        exampleGrid.cardinalBinIndex 1 0 0) :=
  claim_C6_cardinal_index_row_major exampleGrid 0 0 1 1 0 0
    (by decide) (by decide) (by decide) (by decide)
    (by decide) (by decide) (by decide) (by decide)

/-- C7: for every grid binning call, the wrapped 1-d binning data has
exactly `nbin0 * nbin1 * nbin2` bins, where `nbin_d = floor((max - min) / d)`
per axis, i.e. its bin count equals `totalBins()`; and the 3-d `binSize` and
`binOffset` accessors delegate to the wrapped 1-d data at the cardinal
index. -/
theorem claim_C7_grid_bin_count_and_delegation {β γ : Type}
    (aosoa : AoSoA3 (ℚ × ℚ × ℚ) β γ) (cdo : Bool) (b e : ℕ)
    (dx dy dz x0 y0 z0 x1 y1 z1 : ℚ)
    (hdx : 0 < dx) (hdy : 0 < dy) (hdz : 0 < dz)
    (hx : x0 ≤ x1) (hy : y0 ≤ y1) (hz : z0 ≤ z1) :
    ∀ g : CartesianGrid3dBinningData,
      g = (binByCartesianGrid3d aosoa cdo b e dx dy dz x0 y0 z0
        x1 y1 z1).2 →
      ((g.data1d.numBin : ℤ) = g.totalBins ∧
       g.totalBins =
         ⌊(x1 - x0) / dx⌋ * ⌊(y1 - y0) / dy⌋ * ⌊(z1 - z0) / dz⌋ ∧
       (∀ i j k : ℤ,
         g.binSize i j k =
           g.data1d.binSize (g.cardinalBinIndex i j k).toNat ∧
         g.binOffset i j k =
           g.data1d.binOffset (g.cardinalBinIndex i j k).toNat)) := by
  intro g hg
  subst hg
  have hn0 : 0 ≤ ⌊(x1 - x0) / dx⌋ :=
    Int.floor_nonneg.mpr (div_nonneg (by linarith) (le_of_lt hdx))
  have hn1 : 0 ≤ ⌊(y1 - y0) / dy⌋ :=
    Int.floor_nonneg.mpr (div_nonneg (by linarith) (le_of_lt hdy))
  have hn2 : 0 ≤ ⌊(z1 - z0) / dz⌋ :=
    Int.floor_nonneg.mpr (div_nonneg (by linarith) (le_of_lt hdz))
  refine ⟨?_, rfl, fun i j k => ⟨rfl, rfl⟩⟩
  have h1 : (binByCartesianGrid3d aosoa cdo b e dx dy dz x0 y0 z0
      x1 y1 z1).2.data1d.numBin =
      (⌊(x1 - x0) / dx⌋ * ⌊(y1 - y0) / dy⌋ * ⌊(z1 - z0) / dz⌋).toNat :=
    binCounts_length aosoa.c0
      (binOp3d ⌊(x1 - x0) / dx⌋ ⌊(y1 - y0) / dy⌋ ⌊(z1 - z0) / dz⌋
        x0 y0 z0 x1 y1 z1) b e
  show ((binByCartesianGrid3d aosoa cdo b e dx dy dz x0 y0 z0
      x1 y1 z1).2.data1d.numBin : ℤ) =
    ⌊(x1 - x0) / dx⌋ * ⌊(y1 - y0) / dy⌋ * ⌊(z1 - z0) / dz⌋
  rw [h1, Int.toNat_of_nonneg (mul_nonneg (mul_nonneg hn0 hn1) hn2)]

/-- Witness for C7 at a concrete unit grid `[0, 2]^3` with unit cells. -/
theorem claim_C7_witness :
    ((binByCartesianGrid3d exampleGridAoSoA false 0 1 1 1 1 0 0 0
        2 2 2).2.data1d.numBin : ℤ) =
      (binByCartesianGrid3d exampleGridAoSoA false 0 1 1 1 1 0 0 0
        2 2 2).2.totalBins ∧
    (binByCartesianGrid3d exampleGridAoSoA false 0 1 1 1 1 0 0 0
        2 2 2).2.binSize 1 0 1 =
      (binByCartesianGrid3d exampleGridAoSoA false 0 1 1 1 1 0 0 0
          2 2 2).2.data1d.binSize
        ((binByCartesianGrid3d exampleGridAoSoA false 0 1 1 1 1 0 0 0
            2 2 2).2.cardinalBinIndex 1 0 1).toNat := by
  have h := claim_C7_grid_bin_count_and_delegation exampleGridAoSoA false
    0 1 1 1 1 0 0 0 2 2 2
    (by norm_num) (by norm_num) (by norm_num)
    (by norm_num) (by norm_num) (by norm_num)
    (binByCartesianGrid3d exampleGridAoSoA false 0 1 1 1 1 0 0 0 2 2 2).2
    rfl
  exact ⟨h.1, (h.2.2 1 0 1).1⟩

end Cabana
